import Mathlib

/-!
Shallow embedding of the streaming-response merge engine of this repository:
the `ToolMessageChunk.concat` merge algebra and `defaultToolCallParser` from
`langchain-core/src/runnables/iter.ts`, the context-propagating iterator
wrappers from the same file, and the stream aggregation of
`libs/langchain-openai/src/chat_models.ts`.
-/

/-- A JSON-like dynamic value, modelling the loosely typed JavaScript values
stored in `additional_kwargs` / `response_metadata` maps and in `artifact`.
Objects are modelled as association lists in key insertion order (JavaScript
objects preserve insertion order and never hold duplicate keys). -/
inductive JValue where
  | null : JValue
  | bool (b : Bool) : JValue
  | num (n : Int) : JValue
  | str (s : String) : JValue
  | arr (xs : List JValue) : JValue
  | obj (kvs : List (String × JValue)) : JValue

/-- A value that is neither a mapping nor a sequence. -/
def JValue.isScalar : JValue → Bool
  | .arr _ => false
  | .obj _ => false
  | _ => true

mutual

/-- Modelled from the spec: the recursive merge of two dynamic values used by
the metadata merge (`base.js` is not part of the sources): later values
overwrite earlier ones, values that are both mappings merge recursively,
values that are both sequences concatenate. -/
def mergeValue : JValue → JValue → JValue
  | .obj a, .obj b => .obj (_mergeDicts a b)
  | .arr a, .arr b => .arr (a ++ b)
  | _, b => b
  termination_by a b => (sizeOf b, 0)

/-- Modelled from the spec: key-wise merge of two metadata maps
(`_mergeDicts` of `base.js`, which is not part of the sources): the result
starts from the left map; each right entry overwrites (via `mergeValue`) an
existing key in place or is appended at the end. -/
def _mergeDicts : List (String × JValue) → List (String × JValue) → List (String × JValue)
  | acc, [] => acc
  | acc, (k, v) :: rest => _mergeDicts (upsertEntry acc k v) rest
  termination_by acc l => (sizeOf l, 0)

/-- Insert-or-update of one key into an association list: an existing key is
merged in place via `mergeValue`, a new key is appended at the end. -/
def upsertEntry : List (String × JValue) → String → JValue → List (String × JValue)
  | [], k, v => [(k, v)]
  | (k', v') :: acc, k, v =>
      if k' = k then (k', mergeValue v' v) :: acc
      else (k', v') :: upsertEntry acc k v
  termination_by acc k v => (sizeOf v + 1, sizeOf acc)

end

example : mergeValue (.num 1) (.num 2) = .num 2 := by simp [mergeValue]

/-- Message content: either plain text or an ordered list of typed content
parts. -/
inductive MContent where
  | text (s : String) : MContent
  | parts (ps : List JValue) : MContent

def emptyText : String := ""

def keyType : String := "type"

def keyText : String := "text"

def textTag : String := "text"

/-- A plain text string viewed as a single typed content part. -/
def textPart (s : String) : JValue := .obj [(keyType, .str textTag), (keyText, .str s)]

def MContent.isEmptyContent : MContent → Bool
  | .text s => s = ""
  | .parts ps => ps.isEmpty

def MContent.toParts : MContent → List JValue
  | .text s => [textPart s]
  | .parts ps => ps

/-- Modelled from the spec: `mergeContent` of `base.js` (not part of the
sources): two texts concatenate; an absent/empty side returns the other side
unchanged; otherwise the result is the part-list concatenation, a text side
being treated as a single text part. -/
def mergeContent : MContent → MContent → MContent
  | .text x, b =>
      if x = "" then b
      else
        match b with
        | .text y => .text (x ++ y)
        | .parts ps => .parts (textPart x :: ps)
  | .parts ps, b =>
      match b with
      | .parts qs => .parts (ps ++ qs)
      | .text y => if y = "" then .parts ps else .parts (ps ++ [textPart y])

/-- Status of a tool invocation. -/
inductive MStatus where
  | success : MStatus
  | error : MStatus
deriving DecidableEq

/-- Modelled from the spec: `_mergeStatus` of `base.js` (not part of the
sources): the later-defined status wins; an absent later status leaves the
earlier one in place. -/
def _mergeStatus : Option MStatus → Option MStatus → Option MStatus
  | a, none => a
  | _, some s => some s

/-- Modelled from the spec: `_mergeObj` of `base.js` (not part of the
sources), used for the `artifact` field: an absent side returns the other
side; two present values merge as `mergeValue`. -/
def _mergeObj : Option JValue → Option JValue → Option JValue
  | none, b => b
  | a, none => a
  | some x, some y => some (mergeValue x y)

/-- The fields of a `ToolMessageChunk` (iter.ts): message content, the two
metadata maps, the tool artifact, the required tool call id, the optional
message id and the optional invocation status. -/
structure ToolMessageChunk where
  content : MContent
  additional_kwargs : List (String × JValue)
  response_metadata : List (String × JValue)
  artifact : Option JValue
  tool_call_id : String
  id : Option String
  status : Option MStatus

/-- Translated from `ToolMessageChunk.concat` (iter.ts): contents merge via
`mergeContent`, both metadata maps via `_mergeDicts`, the artifact via
`_mergeObj`, the tool call id keeps the receiver's value, the id keeps the
first non-null value (`this.id ?? chunk.id`), and the status merges via
`_mergeStatus`. -/
def ToolMessageChunk.concat (a chunk : ToolMessageChunk) : ToolMessageChunk :=
  { content := mergeContent a.content chunk.content
    additional_kwargs := _mergeDicts a.additional_kwargs chunk.additional_kwargs
    response_metadata := _mergeDicts a.response_metadata chunk.response_metadata
    artifact := _mergeObj a.artifact chunk.artifact
    tool_call_id := a.tool_call_id
    id := a.id.or chunk.id
    status := _mergeStatus a.status chunk.status }

/-- The all-absent-fields fragment: empty content, empty metadata maps, no
artifact, no id, no status, and the default empty tool call id. -/
def emptyToolMessageChunk : ToolMessageChunk :=
  { content := .text emptyText
    additional_kwargs := []
    response_metadata := []
    artifact := none
    tool_call_id := ""
    id := none
    status := none }

/-! ## Stream aggregation (`ChatOpenAI._generate`, streaming branch) -/

/-- Lookup in an integer-keyed association list (the `finalChunks` record). -/
def lookupIndex {α : Type} : List (Nat × α) → Nat → Option α
  | [], _ => none
  | (k, v) :: rest, i => if k = i then some v else lookupIndex rest i

/-- Replace the value stored at a present key, keeping its position. -/
def setIndex {α : Type} : List (Nat × α) → Nat → α → List (Nat × α)
  | [], i, v => [(i, v)]
  | (k, w) :: rest, i, v => if k = i then (k, v) :: rest else (k, w) :: setIndex rest i v

/-- Insertion step of sorting the `finalChunks` entries by numeric key. -/
def insertByKey {α : Type} (p : Nat × α) : List (Nat × α) → List (Nat × α)
  | [] => [p]
  | q :: qs => if p.1 ≤ q.1 then p :: q :: qs else q :: insertByKey p qs

/-- Sorting the `finalChunks` entries by ascending numeric key
(`entries.sort((a, b) => parseInt(a) - parseInt(b))`). -/
def sortByKey {α : Type} : List (Nat × α) → List (Nat × α)
  | [] => []
  | p :: ps => insertByKey p (sortByKey ps)

/-- The stream index of a chunk: `generationInfo?.completion ?? 0`. -/
def chunkIndex {α : Type} (getIndex : α → Option Nat) (c : α) : Nat := (getIndex c).getD 0

/-- The loop body of the streaming branch of `ChatOpenAI._generate`
(chat_models.ts): read the chunk's completion index (default 0) and either
seed `finalChunks[index]` with the chunk (new numeric keys of a JavaScript
object enumerate after existing ones) or replace it by
`finalChunks[index].concat(chunk)`. -/
def aggStep {α : Type} (getIndex : α → Option Nat) (concat : α → α → α)
    (m : List (Nat × α)) (c : α) : List (Nat × α) :=
  let i := chunkIndex getIndex c
  match lookupIndex m i with
  | none => m ++ [(i, c)]
  | some prev => setIndex m i (concat prev c)

/-- Translated from `ChatOpenAI._generate` (streaming branch, chat_models.ts):
each arriving chunk is first enriched in place (the source copies
`generationInfo` into the message's `response_metadata`), its completion
index (default 0) is read, and `finalChunks[index]` is seeded with the chunk
if unseen or replaced by `finalChunks[index].concat(chunk)` otherwise; once
the stream ends the entries are sorted by ascending numeric index and the
merged values are emitted. The element type, the enrichment and the pairwise
`concat` are parameters of the model because `ChatGenerationChunk.concat`
lives outside these sources. -/
def aggregateFinalChunks {α : Type} (enrich : α → α) (getIndex : α → Option Nat)
    (concat : α → α → α) (chunks : List α) : List α :=
  let finalChunks := chunks.foldl (fun m c => aggStep getIndex concat m (enrich c)) []
  (sortByKey finalChunks).map Prod.snd

/-- One step of recording a stream index in first-seen order. -/
def addFirstSeen (acc : List Nat) (i : Nat) : List Nat :=
  if i ∈ acc then acc else acc ++ [i]

/-- The distinct stream indices of a chunk list, in first-seen order (the
insertion order of the keys of `finalChunks`). -/
def firstSeen (l : List Nat) : List Nat :=
  l.foldl addFirstSeen []

/-- The fold of one index group by pairwise merge in arrival order, seeded
with the first fragment of the group. -/
def foldGroup {α : Type} (concat : α → α → α) : List α → Option α
  | [] => none
  | h :: t => some (t.foldl concat h)

/-! ## Context-propagating iterator wrapper (`consumeIteratorInContext`) -/

/-- State of the generator returned by `consumeIteratorInContext` /
`consumeAsyncIterableInContext` (iter.ts): the underlying iterator state and
whether the wrapper loop has ended (after `break`, a finished generator
answers every further pull with done without running its body). -/
structure WrappedIter (σ : Type) where
  inner : σ
  finished : Bool

/-- Observation of one pull of the wrapped iterator: the yielded value (none
when done), the new wrapper state, the ambient context after the pull has
returned to the caller, and the contexts installed during the pull (one per
`runWithConfig` call). -/
structure PullResult (σ T C : Type) where
  value : Option T
  state : WrappedIter σ
  ambient : Option C
  installs : List (Option C)

/-- Translated from `consumeIteratorInContext` (iter.ts): one pull of the
wrapped generator. `step` is the underlying iterator's `next` (`none` when
done). `AsyncLocalStorageProviderSingleton.runWithConfig` is not part of the
sources and is modelled from the spec: it installs the given context for
exactly the duration of the underlying `next` call and then restores the
previously ambient context, so the pull leaves the outside ambient context
`amb` unchanged while recording one install. A finished wrapper performs no
install. `consumeAsyncIterableInContext` has the identical pull structure
(its suspension is the underlying step's own suspension). -/
def consumeIteratorInContextPull {σ T C : Type} (step : σ → σ × Option T)
    (context : Option C) (amb : Option C) (w : WrappedIter σ) : PullResult σ T C :=
  if w.finished then ⟨none, w, amb, []⟩
  else
    match step w.inner with
    | (s', none) => ⟨none, ⟨s', true⟩, amb, [context]⟩
    | (s', some v) => ⟨some v, ⟨s', false⟩, amb, [context]⟩

/-- Running `n` successive pulls of the wrapped iterator: the yielded values in
order, the final wrapper state, the ambient context observed outside the
pulls afterwards, and all installs performed. -/
def consumeIteratorInContextRun {σ T C : Type} (step : σ → σ × Option T)
    (context : Option C) : Nat → Option C → WrappedIter σ →
    List T × WrappedIter σ × Option C × List (Option C)
  | 0, amb, w => ([], w, amb, [])
  | n + 1, amb, w =>
    let r := consumeIteratorInContextPull step context amb w
    let (vs, w', amb', ins) := consumeIteratorInContextRun step context n r.ambient r.state
    (r.value.toList ++ vs, w', amb', r.installs ++ ins)

/-- The elements the underlying iterator itself produces over `n` pulls. -/
def iterTake {σ T : Type} (step : σ → σ × Option T) : Nat → σ → List T
  | 0, _ => []
  | n + 1, s =>
    match step s with
    | (_, none) => []
    | (s', some v) => v :: iterTake step n s'

/-- Whether the underlying iterator signals completion within `n` pulls. -/
def iterDoneWithin {σ T : Type} (step : σ → σ × Option T) : Nat → σ → Bool
  | 0, _ => false
  | n + 1, s =>
    match step s with
    | (_, none) => true
    | (s', some _) => iterDoneWithin step n s'

/-! ## Usage tracking (`ChatOpenAI._streamResponseChunks`) -/

/-- OpenAI role tags distinguished by `_convertDeltaToMessageChunk`. -/
inductive ORole where
  | system
  | assistant
  | user
  | function
  | tool
deriving DecidableEq

/-- Raw token usage counters of the wire protocol. -/
structure CompletionUsage where
  prompt_tokens : Nat
  completion_tokens : Nat
  total_tokens : Nat
deriving DecidableEq

/-- Usage counters attached to an emitted message chunk. -/
structure UsageMetadata where
  input_tokens : Nat
  output_tokens : Nat
  total_tokens : Nat
deriving DecidableEq

/-- One streamed delta: an optional role and an optional content piece. -/
structure ChoiceDelta where
  role : Option ORole
  content : Option String
deriving DecidableEq

/-- One streamed choice: its delta, its completion index and finish reason. -/
structure StreamChoice where
  delta : Option ChoiceDelta
  index : Nat
  finish_reason : Option String
deriving DecidableEq

/-- One raw stream event: optional usage counters and the choice list. -/
structure StreamData where
  usage : Option CompletionUsage
  choices : List StreamChoice
deriving DecidableEq

/-- The message carried by an emitted generation chunk; the chunk classes
produced by `_convertDeltaToMessageChunk` are collapsed to a role tag plus
the fields the claims inspect. -/
structure MsgChunk where
  role : Option ORole
  content : String
  usage_metadata : Option UsageMetadata
deriving DecidableEq

/-- The `generationInfo` of an emitted chunk: prompt and completion token
indices and, on the final chunk of a choice, the finish reason. -/
structure GenInfo where
  prompt : Nat
  completion : Nat
  finish_reason : Option String
deriving DecidableEq

/-- An emitted `ChatGenerationChunk`. -/
structure GenerationChunk where
  message : MsgChunk
  text : String
  generationInfo : Option GenInfo
deriving DecidableEq

/-- Translated from `_convertDeltaToMessageChunk` (chat_models.ts), collapsed
to the modelled message fields: the role is `delta.role ?? defaultRole`, the
content is `delta.content ?? ""`, and no converted delta carries usage
metadata. -/
def _convertDeltaToMessageChunk (delta : ChoiceDelta) (defaultRole : Option ORole) : MsgChunk :=
  { role := delta.role.or defaultRole
    content := delta.content.getD emptyText
    usage_metadata := none }

/-- The terminal usage chunk emitted after the stream ends: an assistant
chunk with empty content whose usage metadata copies the last observed
counters (input ← prompt, output ← completion, total ← total). -/
def usageChunkOf (u : CompletionUsage) : GenerationChunk :=
  { message :=
      { role := some .assistant
        content := ""
        usage_metadata := some ⟨u.prompt_tokens, u.completion_tokens, u.total_tokens⟩ }
    text := ""
    generationInfo := none }

/-- Translated from the loop of `ChatOpenAI._streamResponseChunks`
(chat_models.ts): every event's present `usage` replaces the tracked value;
events without a first choice or without a delta emit nothing; otherwise the
delta is converted (with the threaded default role) and emitted with its
generation info; after the loop, a present tracked usage is emitted as one
terminal usage chunk. -/
def streamResponseChunksGo (promptIndex : Nat) :
    List StreamData → Option CompletionUsage → Option ORole → List GenerationChunk
  | [], usage, _ =>
    match usage with
    | some u => [usageChunkOf u]
    | none => []
  | d :: rest, usage, defaultRole =>
    let usage' := if d.usage.isSome then d.usage else usage
    match d.choices.head? with
    | none => streamResponseChunksGo promptIndex rest usage' defaultRole
    | some choice =>
      match choice.delta with
      | none => streamResponseChunksGo promptIndex rest usage' defaultRole
      | some delta =>
        let chunk := _convertDeltaToMessageChunk delta defaultRole
        { message := chunk
          text := chunk.content
          generationInfo := some ⟨promptIndex, choice.index, choice.finish_reason⟩ } ::
          streamResponseChunksGo promptIndex rest usage' (delta.role.or defaultRole)

/-- The model of `ChatOpenAI._streamResponseChunks` on a finite stream of events. -/
def _streamResponseChunks (promptIndex : Nat) (datas : List StreamData) : List GenerationChunk :=
  streamResponseChunksGo promptIndex datas none none

/-- The per-event chunks alone (the emission of the loop body with the usage
tracking removed), used to characterise `_streamResponseChunks`. -/
def streamBodyChunks (promptIndex : Nat) :
    List StreamData → Option ORole → List GenerationChunk
  | [], _ => []
  | d :: rest, defaultRole =>
    match d.choices.head? with
    | none => streamBodyChunks promptIndex rest defaultRole
    | some choice =>
      match choice.delta with
      | none => streamBodyChunks promptIndex rest defaultRole
      | some delta =>
        let chunk := _convertDeltaToMessageChunk delta defaultRole
        { message := chunk
          text := chunk.content
          generationInfo := some ⟨promptIndex, choice.index, choice.finish_reason⟩ } ::
          streamBodyChunks promptIndex rest (delta.role.or defaultRole)

/-! ## `defaultToolCallParser` (iter.ts) -/

/-- The `function` member of a raw tool call. -/
structure RawFunction where
  name : Option String
  arguments : Option String
deriving DecidableEq

/-- A raw tool call as received from the provider. -/
structure RawToolCall where
  function : Option RawFunction
  id : Option String
deriving DecidableEq

/-- A successfully parsed tool call. -/
structure ToolCall where
  name : String
  args : JValue
  id : Option String

/-- A tool call whose arguments failed to parse. -/
structure InvalidToolCall where
  name : Option String
  args : Option String
  id : Option String
  error : Option String

def malformedArgsMessage : String := "Malformed args."

/-- JavaScript truthiness of a dynamic value (`functionName || ""` and
`functionArgs || {}` in the source). -/
def JValue.truthy : JValue → Bool
  | .null => false
  | .bool b => b
  | .num n => n != 0
  | .str s => s != ""
  | .arr _ => true
  | .obj _ => true

/-- Translated from `defaultToolCallParser` (iter.ts): entries without a
`function` member are skipped; for the rest, `JSON.parse` (an external
platform function, modelled by the `parseJson` parameter, `none` standing
for a thrown parse error; a missing arguments string also makes `JSON.parse`
throw) decides between a valid tool call — name defaulting to the empty
string, falsy parsed args replaced by the empty object, id copied — and an
invalid one carrying the raw arguments and the fixed error text. -/
def defaultToolCallParser (parseJson : String → Option JValue) :
    List RawToolCall → List ToolCall × List InvalidToolCall
  | [] => ([], [])
  | tc :: rest =>
    let (ts, is) := defaultToolCallParser parseJson rest
    match tc.function with
    | none => (ts, is)
    | some f =>
      match f.arguments.bind parseJson with
      | some v =>
        ({ name := f.name.getD emptyText
           args := if v.truthy then v else .obj []
           id := tc.id } :: ts, is)
      | none =>
        (ts, { name := f.name
               args := f.arguments
               id := tc.id
               error := some malformedArgsMessage } :: is)

/-- The valid tool call an entry contributes, if any. -/
def parsedToolCallOf (parseJson : String → Option JValue) (tc : RawToolCall) : Option ToolCall :=
  tc.function.bind fun f =>
    (f.arguments.bind parseJson).map fun v =>
      { name := f.name.getD emptyText
        args := if v.truthy then v else .obj []
        id := tc.id }

/-- The invalid tool call an entry contributes, if any. -/
def invalidToolCallOf (parseJson : String → Option JValue) (tc : RawToolCall) :
    Option InvalidToolCall :=
  tc.function.bind fun f =>
    match f.arguments.bind parseJson with
    | some _ => none
    | none =>
      some { name := f.name
             args := f.arguments
             id := tc.id
             error := some malformedArgsMessage }

/-! ## Auxiliary predicates and sample values -/

/-- Plain-text content check. -/
def MContent.isText : MContent → Bool
  | .text _ => true
  | .parts _ => false

/-- All values of a metadata map are scalar. -/
def scalarEntries (l : List (String × JValue)) : Bool :=
  l.all fun e => e.2.isScalar

/-- An absent-or-scalar optional value (artifact shape). -/
def optScalar : Option JValue → Bool
  | none => true
  | some v => v.isScalar

/-- Ascending insertion of an index. -/
def insertNat (i : Nat) : List Nat → List Nat
  | [] => [i]
  | j :: js => if i ≤ j then i :: j :: js else j :: insertNat i js

/-- Ascending sort of a list of stream indices. -/
def sortNat : List Nat → List Nat
  | [] => []
  | i :: is => insertNat i (sortNat is)

def sHello : String := "hello"

def sWorld : String := "world"

def sTail : String := "tail"

def sIdA : String := "id-a"

def sIdB : String := "id-b"

def tcid1 : String := "call-1"

def keyK : String := "k"

def keyX : String := "x"

def keyY : String := "y"

def sPart : String := "p"

/-- A sample fragment with defined id and status. -/
def toolChunkA : ToolMessageChunk :=
  { content := .text sHello
    additional_kwargs := []
    response_metadata := []
    artifact := none
    tool_call_id := tcid1
    id := some sIdA
    status := some .success }

/-- A sample fragment with a different id and an error status. -/
def toolChunkB : ToolMessageChunk :=
  { content := .text sWorld
    additional_kwargs := []
    response_metadata := []
    artifact := none
    tool_call_id := tcid1
    id := some sIdB
    status := some .error }

/-- A sample fragment with absent id and status. -/
def toolChunkC : ToolMessageChunk :=
  { content := .text sTail
    additional_kwargs := []
    response_metadata := []
    artifact := none
    tool_call_id := tcid1
    id := none
    status := none }

/-- A fragment with given content and all other optional fields absent. -/
def plainChunk (c : MContent) : ToolMessageChunk :=
  { content := c
    additional_kwargs := []
    response_metadata := []
    artifact := none
    tool_call_id := tcid1
    id := none
    status := none }

/-- Part-list content fragment for the associativity counterexample. -/
def cxPartsC : ToolMessageChunk := plainChunk (.parts [textPart sPart])

/-- Fragment whose metadata holds a nested mapping at key `k`. -/
def cxMetaA : ToolMessageChunk :=
  { plainChunk (.text sHello) with
      additional_kwargs := [(keyK, JValue.obj [(keyX, JValue.num 1)])] }

/-- Fragment whose metadata holds a scalar at key `k`. -/
def cxMetaB : ToolMessageChunk :=
  { plainChunk (.text sWorld) with additional_kwargs := [(keyK, JValue.num 2)] }

/-- Fragment whose metadata holds another nested mapping at key `k`. -/
def cxMetaC : ToolMessageChunk :=
  { plainChunk (.text sTail) with
      additional_kwargs := [(keyK, JValue.obj [(keyY, JValue.num 3)])] }

/-- Fragment with a sequence artifact. -/
def cxArtA : ToolMessageChunk :=
  { plainChunk (.text sHello) with artifact := some (JValue.arr [JValue.num 1]) }

/-- Fragment with a scalar artifact. -/
def cxArtB : ToolMessageChunk :=
  { plainChunk (.text sWorld) with artifact := some (JValue.num 2) }

/-- Fragment with another sequence artifact. -/
def cxArtC : ToolMessageChunk :=
  { plainChunk (.text sTail) with artifact := some (JValue.arr [JValue.num 3]) }

/-- Underlying iterator for wrapper witnesses: yields 0 then 1, then done. -/
def countStep (s : Nat) : Nat × Option Nat :=
  if s < 2 then (s + 1, some s) else (s, none)

/-- Sample usage counters. -/
def usage37 : CompletionUsage := { prompt_tokens := 3, completion_tokens := 7, total_tokens := 10 }

/-- A content-bearing stream event. -/
def dataContent : StreamData :=
  { usage := none
    choices := [{ delta := some { role := some .assistant, content := some sHello }
                  index := 0
                  finish_reason := none }] }

/-- A terminal usage-bearing stream event with no choices. -/
def dataUsage : StreamData := { usage := some usage37, choices := [] }

/-- Sample finite stream. -/
def exDatas : List StreamData := [dataContent, dataUsage]

/-- The chunk `dataContent` is converted to. -/
def contentChunk0 : GenerationChunk :=
  { message := { role := some .assistant, content := sHello, usage_metadata := none }
    text := sHello
    generationInfo := some { prompt := 0, completion := 0, finish_reason := none } }

/-- Index-tagged payload merge for aggregation examples: keep the left tag,
concatenate the payloads. -/
def mergeTagged (a b : Option Nat × List String) : Option Nat × List String :=
  (a.1, a.2 ++ b.2)

/-- A default-indexed plain-content payload. -/
def fragContent : Option Nat × List String := (none, [sHello])

/-- A tool-call payload explicitly indexed 0. -/
def fragTool : Option Nat × List String := (some 0, [sWorld])

/-! ## Theorems -/

/-- C10: `defaultToolCallParser` returns an order-preserving partition of the
raw tool calls: entries without a `function` member are dropped; an entry
whose arguments string parses as JSON contributes a valid tool call (name
defaulting to the empty string, falsy parsed args to the empty map, id
copied); an entry whose arguments fail to parse contributes an invalid tool
call carrying the raw arguments string and the fixed error text. The parser
is a total function, so no input makes it throw. -/
theorem c10_defaultToolCallParser_partition (parseJson : String → Option JValue)
    (raws : List RawToolCall) :
    defaultToolCallParser parseJson raws =
      (raws.filterMap (parsedToolCallOf parseJson),
       raws.filterMap (invalidToolCallOf parseJson)) := by
  induction raws with
  | nil => rfl
  | cons tc rest ih =>
    simp only [defaultToolCallParser, ih, List.filterMap_cons]
    cases hf : tc.function with
    | none =>
      simp only [parsedToolCallOf, invalidToolCallOf, hf, Option.none_bind]
    | some f =>
      cases hp : f.arguments.bind parseJson with
      | none =>
        simp only [parsedToolCallOf, invalidToolCallOf, hf, Option.some_bind, hp,
          Option.map_none']
      | some v =>
        simp only [parsedToolCallOf, invalidToolCallOf, hf, Option.some_bind, hp,
          Option.map_some']

/-- C7: once the running fragment of a fold carries a non-null id, every
subsequent merge retains that id, ignoring ids of later fragments
(`id: this.id ?? chunk.id`). -/
theorem c7_id_first_non_null_wins (A : ToolMessageChunk) (i : String)
    (cs : List ToolMessageChunk) (h : A.id = some i) :
    (cs.foldl ToolMessageChunk.concat A).id = some i := by
  induction cs generalizing A with
  | nil => exact h
  | cons c cs ih =>
    exact ih (A.concat c) (by simp [ToolMessageChunk.concat, h])

/-- Witness for C7 at concrete fragments. -/
theorem c7_id_first_non_null_wins_witness :
    toolChunkA.id = some sIdA ∧
    (([toolChunkB, toolChunkC]).foldl ToolMessageChunk.concat toolChunkA).id = some sIdA :=
  ⟨rfl, c7_id_first_non_null_wins toolChunkA sIdA [toolChunkB, toolChunkC] rfl⟩

/-- C6: for the status field, the later-defined value wins: a defined later
status is the result, and an absent later status leaves the earlier value in
place. -/
theorem c6_status_later_defined_wins (a b : ToolMessageChunk) :
    (∀ s, b.status = some s → (a.concat b).status = some s) ∧
    (b.status = none → (a.concat b).status = a.status) := by
  constructor
  · intro s hs
    simp [ToolMessageChunk.concat, hs, _mergeStatus]
  · intro hn
    simp [ToolMessageChunk.concat, hn, _mergeStatus]

/-- Witness for C6 at concrete fragments. -/
theorem c6_status_later_defined_wins_witness :
    (toolChunkA.concat toolChunkB).status = some MStatus.error ∧
    (toolChunkA.concat toolChunkC).status = toolChunkA.status :=
  ⟨(c6_status_later_defined_wins toolChunkA toolChunkB).1 MStatus.error rfl,
   (c6_status_later_defined_wins toolChunkA toolChunkC).2 rfl⟩

/-- A pull leaves the outside ambient context unchanged. -/
theorem consumePull_ambient {σ T C : Type} (step : σ → σ × Option T)
    (context amb : Option C) (w : WrappedIter σ) :
    (consumeIteratorInContextPull step context amb w).ambient = amb := by
  unfold consumeIteratorInContextPull
  rcases hs : step w.inner with ⟨s', r⟩
  by_cases h : w.finished
  · simp [h]
  · cases r <;> simp [h, hs]

/-- A pull of a finished wrapper returns done and installs nothing. -/
theorem consumePull_finished {σ T C : Type} (step : σ → σ × Option T)
    (context amb : Option C) (w : WrappedIter σ) (h : w.finished = true) :
    consumeIteratorInContextPull step context amb w = ⟨none, w, amb, []⟩ := by
  simp [consumeIteratorInContextPull, h]

/-- Pulling a finished wrapper any number of times changes nothing. -/
theorem consumeRun_finished {σ T C : Type} (step : σ → σ × Option T)
    (context : Option C) (n : Nat) : ∀ (amb : Option C) (w : WrappedIter σ),
    w.finished = true →
    consumeIteratorInContextRun step context n amb w = ([], w, amb, []) := by
  induction n with
  | zero => intro amb w _; rfl
  | succ n ih =>
    intro amb w h
    unfold consumeIteratorInContextRun
    rw [consumePull_finished step context amb w h]
    dsimp only
    rw [ih amb w h]
    rfl

/-- The ambient context outside the pulls is preserved by any run. -/
theorem consumeRun_ambient {σ T C : Type} (step : σ → σ × Option T)
    (context : Option C) (n : Nat) : ∀ (amb : Option C) (w : WrappedIter σ),
    (consumeIteratorInContextRun step context n amb w).2.2.1 = amb := by
  induction n with
  | zero => intro amb w; rfl
  | succ n ih =>
    intro amb w
    unfold consumeIteratorInContextRun
    rcases hr : consumeIteratorInContextRun step context n
      (consumeIteratorInContextPull step context amb w).ambient
      (consumeIteratorInContextPull step context amb w).state with ⟨vs, w', amb', ins⟩
    have h2 := ih (consumeIteratorInContextPull step context amb w).ambient
      (consumeIteratorInContextPull step context amb w).state
    rw [hr] at h2
    simp only [hr]
    simpa [consumePull_ambient] using h2

/-- A run that has seen the underlying sequence finish is stable: further
pulls change no component of the observation. -/
theorem consumeRun_stable_of_finished {σ T C : Type} (step : σ → σ × Option T)
    (context : Option C) (n m : Nat) : ∀ (amb : Option C) (w : WrappedIter σ),
    (consumeIteratorInContextRun step context n amb w).2.1.finished = true →
    consumeIteratorInContextRun step context (n + m) amb w =
      consumeIteratorInContextRun step context n amb w := by
  induction n with
  | zero =>
    intro amb w h
    have h0 : w.finished = true := h
    simp only [Nat.zero_add]
    exact consumeRun_finished step context m amb w h0
  | succ n ih =>
    intro amb w h
    have hadd : n + 1 + m = (n + m) + 1 := by omega
    rw [hadd]
    unfold consumeIteratorInContextRun
    unfold consumeIteratorInContextRun at h
    dsimp only at h ⊢
    rcases hr : consumeIteratorInContextRun step context n
      (consumeIteratorInContextPull step context amb w).ambient
      (consumeIteratorInContextPull step context amb w).state with ⟨vs, w', amb', ins⟩
    rw [hr] at h
    have hfin : (consumeIteratorInContextRun step context n
        (consumeIteratorInContextPull step context amb w).ambient
        (consumeIteratorInContextPull step context amb w).state).2.1.finished = true := by
      rw [hr]; exact h
    rw [ih _ _ hfin, hr]

/-- C3: the context-propagating wrapper installs the context only for the
duration of each pull: after any number `n` of pulls of the wrapped sequence
the ambient context observed outside any pull equals the context that was
ambient before wrapping began, and once the wrapper has observed completion
of the underlying sequence no further installs occur. -/
theorem c3_context_restoration {σ T C : Type} (step : σ → σ × Option T)
    (context : Option C) (amb : Option C) (w : WrappedIter σ) (n m : Nat) :
    (consumeIteratorInContextRun step context n amb w).2.2.1 = amb ∧
    ((consumeIteratorInContextRun step context n amb w).2.1.finished = true →
      (consumeIteratorInContextRun step context (n + m) amb w).2.2.2 =
        (consumeIteratorInContextRun step context n amb w).2.2.2) := by
  refine ⟨consumeRun_ambient step context n amb w, fun h => ?_⟩
  rw [consumeRun_stable_of_finished step context n m amb w h]

/-- Witness for C3: a two-element iterator, pulled three then five times. -/
theorem c3_context_restoration_witness :
    (consumeIteratorInContextRun countStep (some 5) 3 (some 9) ⟨0, false⟩).2.2.1 = some 9 ∧
    (consumeIteratorInContextRun countStep (some 5) (3 + 2) (some 9) ⟨0, false⟩).2.2.2 =
      (consumeIteratorInContextRun countStep (some 5) 3 (some 9) ⟨0, false⟩).2.2.2 :=
  ⟨(c3_context_restoration countStep (some 5) (some 9) ⟨0, false⟩ 3 2).1,
   (c3_context_restoration countStep (some 5) (some 9) ⟨0, false⟩ 3 2).2 (by decide)⟩

/-- C4: the wrapper is value-transparent: over any number of pulls it yields
exactly the elements the underlying sequence produces, in order, with no
buffering or filtering, and it signals completion exactly when the
underlying sequence does. -/
theorem c4_value_transparency {σ T C : Type} (step : σ → σ × Option T)
    (context : Option C) (n : Nat) : ∀ (amb : Option C) (s : σ),
    (consumeIteratorInContextRun step context n amb ⟨s, false⟩).1 = iterTake step n s ∧
    (consumeIteratorInContextRun step context n amb ⟨s, false⟩).2.1.finished =
      iterDoneWithin step n s := by
  induction n with
  | zero => intro amb s; exact ⟨rfl, rfl⟩
  | succ n ih =>
    intro amb s
    unfold consumeIteratorInContextRun iterTake iterDoneWithin
    rcases hs : step s with ⟨s', r⟩
    cases r with
    | none =>
      have hp : consumeIteratorInContextPull step context amb ⟨s, false⟩ =
          ⟨none, ⟨s', true⟩, amb, [context]⟩ := by
        simp [consumeIteratorInContextPull, hs]
      rw [hp]
      dsimp only
      rw [consumeRun_finished step context n amb ⟨s', true⟩ rfl]
      exact ⟨rfl, rfl⟩
    | some v =>
      have hp : consumeIteratorInContextPull step context amb ⟨s, false⟩ =
          ⟨some v, ⟨s', false⟩, amb, [context]⟩ := by
        simp [consumeIteratorInContextPull, hs]
      rw [hp]
      dsimp only
      rcases hr : consumeIteratorInContextRun step context n amb ⟨s', false⟩ with ⟨vs, w', amb', ins⟩
      have h2 := ih amb s'
      rw [hr] at h2
      refine ⟨?_, ?_⟩
      · simpa using h2.1
      · simpa using h2.2

/-- The last element of a cons, phrased with `Option.or`. -/
theorem getLast?_cons_or {β : Type} (x : β) (l : List β) :
    (x :: l).getLast? = l.getLast?.or (some x) := by
  induction l generalizing x with
  | nil => rfl
  | cons y l ih =>
    rw [List.getLast?_cons_cons, ih y]
    cases l.getLast? <;> rfl

/-- The loop of `_streamResponseChunks` emits the per-event chunks followed by
one terminal usage chunk for the last usage observed (if any). -/
theorem streamGo_characterization (pi : Nat) (datas : List StreamData) :
    ∀ (usage : Option CompletionUsage) (dr : Option ORole),
    streamResponseChunksGo pi datas usage dr =
      streamBodyChunks pi datas dr ++
        (((datas.filterMap StreamData.usage).getLast?.or usage).map usageChunkOf).toList := by
  induction datas with
  | nil =>
    intro usage dr
    cases usage <;> rfl
  | cons d rest ih =>
    intro usage dr
    have hkey :
        ((d :: rest).filterMap StreamData.usage).getLast?.or usage =
          (rest.filterMap StreamData.usage).getLast?.or
            (if d.usage.isSome then d.usage else usage) := by
      cases hu : d.usage with
      | none => simp [List.filterMap_cons, hu]
      | some u =>
        simp only [List.filterMap_cons, hu, Option.isSome_some, if_pos]
        rw [getLast?_cons_or, Option.or_assoc]
        rfl
    unfold streamResponseChunksGo streamBodyChunks
    dsimp only
    rw [hkey]
    cases hc : d.choices.head? with
    | none => exact ih _ dr
    | some choice =>
      dsimp only
      cases hd : choice.delta with
      | none => exact ih _ dr
      | some delta =>
        dsimp only
        rw [ih _ (delta.role.or dr)]
        simp

/-- No per-event chunk carries usage metadata. -/
theorem streamBody_no_usage (pi : Nat) (datas : List StreamData) :
    ∀ (dr : Option ORole), ∀ c ∈ streamBodyChunks pi datas dr,
      c.message.usage_metadata = none := by
  induction datas with
  | nil => intro dr c hc; cases hc
  | cons d rest ih =>
    intro dr c hc
    unfold streamBodyChunks at hc
    rcases hc' : d.choices.head? with _ | choice
    · rw [hc'] at hc; exact ih dr c hc
    · rw [hc'] at hc
      dsimp only at hc
      rcases hd : choice.delta with _ | delta
      · rw [hd] at hc; exact ih dr c hc
      · rw [hd] at hc
        dsimp only at hc
        rcases List.mem_cons.mp hc with h | h
        · rw [h]; rfl
        · exact ih _ c h

/-- C8: the later non-null usage value replaces the earlier one across the
stream, and when any event carried usage, exactly one terminal chunk holding
the last-observed counters (input ← prompt, output ← completion,
total ← total) is emitted after all per-event chunks; no per-event chunk
carries usage metadata. -/
theorem c8_usage_terminal_chunk (pi : Nat) (datas : List StreamData) :
    _streamResponseChunks pi datas =
      streamBodyChunks pi datas none ++
        (((datas.filterMap StreamData.usage).getLast?).map usageChunkOf).toList ∧
    ∀ c ∈ streamBodyChunks pi datas none, c.message.usage_metadata = none := by
  constructor
  · have h := streamGo_characterization pi datas none none
    simpa using h
  · exact streamBody_no_usage pi datas none

/-- Witness for C8 on a concrete two-event stream. -/
theorem c8_usage_terminal_chunk_witness :
    _streamResponseChunks 0 exDatas = [contentChunk0, usageChunkOf usage37] ∧
    contentChunk0.message.usage_metadata = none :=
  ⟨by rw [(c8_usage_terminal_chunk 0 exDatas).1]; rfl,
   (c8_usage_terminal_chunk 0 exDatas).2 contentChunk0 (by decide)⟩

/-- Upserting a fresh key appends the entry at the end. -/
theorem upsertEntry_of_not_mem (acc : List (String × JValue)) (k : String) (v : JValue)
    (h : k ∉ acc.map Prod.fst) : upsertEntry acc k v = acc ++ [(k, v)] := by
  induction acc with
  | nil => simp [upsertEntry]
  | cons e acc ih =>
    rcases e with ⟨k', v'⟩
    simp only [List.map_cons, List.mem_cons] at h
    push_neg at h
    simp only [upsertEntry]
    rw [if_neg (by exact fun he => h.1 he.symm)]
    rw [ih h.2]
    rfl

/-- Merging a key-disjoint duplicate-free map into `acc` appends it. -/
theorem _mergeDicts_disjoint (d : List (String × JValue)) :
    ∀ acc : List (String × JValue), (d.map Prod.fst).Nodup →
    (∀ k ∈ d.map Prod.fst, k ∉ acc.map Prod.fst) →
    _mergeDicts acc d = acc ++ d := by
  induction d with
  | nil => intro acc _ _; simp [_mergeDicts]
  | cons e d ih =>
    rcases e with ⟨k, v⟩
    intro acc hnd hdisj
    simp only [List.map_cons, List.nodup_cons] at hnd
    simp only [_mergeDicts]
    rw [upsertEntry_of_not_mem acc k v (hdisj k (by simp))]
    rw [ih (acc ++ [(k, v)]) hnd.2 ?hdis]
    · simp
    case hdis =>
      intro k' hk'
      simp only [List.map_append, List.mem_append, List.map_cons, List.map_nil]
      push_neg
      constructor
      · exact hdisj k' (by simp [hk'])
      · simp only [List.mem_singleton]
        intro hkk
        exact hnd.1 (hkk ▸ hk')

/-- A duplicate-free map merged into the empty map is unchanged. -/
theorem _mergeDicts_nil_left (d : List (String × JValue)) (h : (d.map Prod.fst).Nodup) :
    _mergeDicts [] d = d := by
  have := _mergeDicts_disjoint d [] h (by simp)
  simpa using this

/-- Merging the empty content on the right changes nothing. -/
theorem mergeContent_empty_right (c : MContent) : mergeContent c (.text emptyText) = c := by
  cases c with
  | text s =>
    by_cases hs : s = ""
    · simp [mergeContent, emptyText, hs]
    · simp [mergeContent, emptyText, hs, String.append_empty]
  | parts ps => simp [mergeContent, emptyText]

/-- Merging the empty content on the left changes nothing. -/
theorem mergeContent_empty_left (c : MContent) : mergeContent (.text emptyText) c = c := by
  simp [mergeContent, emptyText]

/-- An absent right side leaves `_mergeObj` unchanged. -/
theorem _mergeObj_none_right (a : Option JValue) : _mergeObj a none = a := by
  cases a <;> rfl

/-- An absent left status leaves the right status. -/
theorem _mergeStatus_none_left (s : Option MStatus) : _mergeStatus none s = s := by
  cases s <;> rfl

/-- C5 (amended): the all-absent-fields fragment is a right identity for the
merge, and a left identity on every field except the required
`tool_call_id`, which always keeps the left (empty) fragment's value; the
left identity on the metadata maps assumes their keys are duplicate-free
(JavaScript objects cannot carry duplicate keys). -/
theorem c5_identity_amended (A : ToolMessageChunk)
    (h1 : (A.additional_kwargs.map Prod.fst).Nodup)
    (h2 : (A.response_metadata.map Prod.fst).Nodup) :
    A.concat emptyToolMessageChunk = A ∧
    emptyToolMessageChunk.concat A = { A with tool_call_id := emptyToolMessageChunk.tool_call_id } := by
  obtain ⟨c, kw, rm, ar, t, i, st⟩ := A
  constructor
  · simp only [ToolMessageChunk.concat, emptyToolMessageChunk]
    simp [mergeContent_empty_right, _mergeDicts, _mergeObj_none_right, _mergeStatus]
  · simp only [ToolMessageChunk.concat, emptyToolMessageChunk] at *
    simp [mergeContent_empty_left, _mergeDicts_nil_left kw h1, _mergeDicts_nil_left rm h2,
      _mergeObj, _mergeStatus_none_left]

/-- Witness for the amended C5 at a concrete fragment. -/
theorem c5_identity_amended_witness :
    toolChunkA.concat emptyToolMessageChunk = toolChunkA ∧
    emptyToolMessageChunk.concat toolChunkA =
      { toolChunkA with tool_call_id := emptyToolMessageChunk.tool_call_id } :=
  c5_identity_amended toolChunkA (by simp [toolChunkA]) (by simp [toolChunkA])

/-- Counterexample to C5 as stated: the left identity fails, because the
merge keeps the left fragment's (empty) `tool_call_id` rather than the right
fragment's defined one. -/
theorem c5_identity_counterexample :
    emptyToolMessageChunk.concat toolChunkA ≠ toolChunkA := by
  intro h
  have ht := congrArg ToolMessageChunk.tool_call_id h
  simp [ToolMessageChunk.concat, emptyToolMessageChunk, toolChunkA, tcid1] at ht

/-- C9 (amended): a tool-call fragment whose explicit index collides with the
default index of an earlier plain-content fragment is silently merged into
that fragment's slot by pairwise concatenation, in arrival order; the
aggregation has no error outcome. -/
theorem c9_silent_merge_amended {α : Type} (enrich : α → α) (getIndex : α → Option Nat)
    (concat : α → α → α) (A B : α)
    (hA : getIndex (enrich A) = none) (hB : getIndex (enrich B) = some 0) :
    aggregateFinalChunks enrich getIndex concat [A, B] = [concat (enrich A) (enrich B)] := by
  simp [aggregateFinalChunks, aggStep, chunkIndex, hA, hB, lookupIndex, setIndex,
    sortByKey, insertByKey]

/-- Witness for the amended C9 at concrete payloads. -/
theorem c9_silent_merge_amended_witness :
    aggregateFinalChunks id Prod.fst mergeTagged [fragContent, fragTool] =
      [mergeTagged fragContent fragTool] :=
  c9_silent_merge_amended id Prod.fst mergeTagged fragContent fragTool rfl rfl

/-- Counterexample to C9 as stated: the aggregation merges the offending
tool-call fragment into the plain-content fragment's slot (and its result
type has no error outcome), instead of reporting a data-consistency error
and leaving the slot unmerged. -/
theorem c9_ambiguous_grouping_counterexample :
    aggregateFinalChunks id Prod.fst mergeTagged [fragContent, fragTool] =
      [(none, [sHello, sWorld])] ∧
    aggregateFinalChunks id Prod.fst mergeTagged [fragContent, fragTool] ≠ [fragContent] := by
  constructor
  · rfl
  · decide

/-- A scalar later value always wins in `mergeValue`. -/
theorem mergeValue_scalar_right (v : JValue) (hv : v.isScalar = true) :
    ∀ w : JValue, mergeValue w v = v := by
  intro w
  cases w <;> cases v <;> simp_all [mergeValue, JValue.isScalar]

/-- Upserting the same key twice with a scalar second value collapses to the
second upsert. -/
theorem upsertEntry_upsertEntry_scalar (k : String) (v1 v2 : JValue)
    (hv : v2.isScalar = true) :
    ∀ acc : List (String × JValue),
    upsertEntry (upsertEntry acc k v1) k v2 = upsertEntry acc k v2 := by
  intro acc
  induction acc with
  | nil => simp [upsertEntry, mergeValue_scalar_right v2 hv]
  | cons e acc ih =>
    rcases e with ⟨k', w⟩
    by_cases hk : k' = k
    · simp [upsertEntry, hk, mergeValue_scalar_right v2 hv]
    · simp [upsertEntry, hk, ih]

/-- The keys of an upsert: unchanged for a present key, appended otherwise. -/
theorem keys_upsertEntry (k : String) (v : JValue) :
    ∀ acc : List (String × JValue),
    (upsertEntry acc k v).map Prod.fst =
      if k ∈ acc.map Prod.fst then acc.map Prod.fst else acc.map Prod.fst ++ [k] := by
  intro acc
  induction acc with
  | nil => simp [upsertEntry]
  | cons e acc ih =>
    rcases e with ⟨k', w⟩
    by_cases hk : k' = k
    · simp [upsertEntry, hk]
    · simp only [upsertEntry, if_neg hk, List.map_cons, ih]
      have hkk : ¬ (k = k') := fun h => hk h.symm
      by_cases hmem : k ∈ acc.map Prod.fst
      · simp [hmem, hkk]
      · simp [hmem, hkk]

/-- The upserted key is a key of the result. -/
theorem mem_keys_upsertEntry (acc : List (String × JValue)) (k : String) (v : JValue) :
    k ∈ (upsertEntry acc k v).map Prod.fst := by
  rw [keys_upsertEntry]
  by_cases hmem : k ∈ acc.map Prod.fst <;> simp [hmem]

/-- Existing keys survive an upsert. -/
theorem mem_keys_upsertEntry_of_mem (acc : List (String × JValue)) (a k : String) (v : JValue)
    (h : a ∈ acc.map Prod.fst) : a ∈ (upsertEntry acc k v).map Prod.fst := by
  rw [keys_upsertEntry]
  by_cases hmem : k ∈ acc.map Prod.fst <;> simp [hmem, h]

/-- An upsert preserves duplicate-freeness of the keys. -/
theorem nodup_keys_upsertEntry (acc : List (String × JValue)) (k : String) (v : JValue)
    (h : (acc.map Prod.fst).Nodup) : ((upsertEntry acc k v).map Prod.fst).Nodup := by
  rw [keys_upsertEntry]
  by_cases hmem : k ∈ acc.map Prod.fst
  · simpa [hmem] using h
  · simp [hmem, List.nodup_append, h]

/-- An upsert with a scalar value preserves scalarity of all values. -/
theorem scalarEntries_upsertEntry (k : String) (v : JValue) (hv : v.isScalar = true) :
    ∀ acc : List (String × JValue), (∀ e ∈ acc, e.2.isScalar = true) →
    ∀ e ∈ upsertEntry acc k v, e.2.isScalar = true := by
  intro acc
  induction acc with
  | nil =>
    intro _ e he
    simp only [upsertEntry, List.mem_singleton] at he
    simp [he, hv]
  | cons e0 acc ih =>
    rcases e0 with ⟨k', w⟩
    intro hall e he
    by_cases hk : k' = k
    · simp only [upsertEntry, if_pos hk, List.mem_cons] at he
      rcases he with he | he
      · simp [he, mergeValue_scalar_right v hv, hv]
      · exact hall e (List.mem_cons_of_mem _ he)
    · simp only [upsertEntry, if_neg hk, List.mem_cons] at he
      rcases he with he | he
      · exact hall e (he ▸ List.mem_cons_self _ _)
      · exact ih (fun e' he' => hall e' (List.mem_cons_of_mem _ he')) e he

/-- Upserts at distinct keys commute when the second key is already present. -/
theorem upsertEntry_comm (k k' : String) (v v' : JValue) (hne : k' ≠ k) :
    ∀ acc : List (String × JValue), k ∈ acc.map Prod.fst →
    upsertEntry (upsertEntry acc k' v') k v = upsertEntry (upsertEntry acc k v) k' v' := by
  intro acc
  induction acc with
  | nil => intro h; simp at h
  | cons e acc ih =>
    rcases e with ⟨a, w⟩
    intro hk
    by_cases hak : a = k
    · subst hak
      have h1 : ¬ (a = k') := fun h => hne h.symm
      simp [upsertEntry, h1]
    · by_cases hak' : a = k'
      · subst hak'
        simp [upsertEntry, hne]
      · have hk' : k ∈ acc.map Prod.fst := by
          simp only [List.map_cons, List.mem_cons] at hk
          rcases hk with h | h
          · exact absurd h.symm hak
          · exact h
        simp [upsertEntry, hak, hak', ih hk']

/-- An upsert of a key already present in the accumulator commutes with
merging a map that does not mention that key. -/
theorem _mergeDicts_upsertEntry_left (c : List (String × JValue)) :
    ∀ (acc : List (String × JValue)) (k : String) (v : JValue),
    k ∈ acc.map Prod.fst → k ∉ c.map Prod.fst →
    _mergeDicts (upsertEntry acc k v) c = upsertEntry (_mergeDicts acc c) k v := by
  induction c with
  | nil => intro acc k v _ _; simp [_mergeDicts]
  | cons e c ih =>
    rcases e with ⟨k2, v2⟩
    intro acc k v hk hc
    simp only [List.map_cons, List.mem_cons] at hc
    push_neg at hc
    simp only [_mergeDicts]
    rw [← upsertEntry_comm k k2 v v2 (fun h => hc.1 h.symm) acc hk]
    exact ih (upsertEntry acc k2 v2) k v
      (mem_keys_upsertEntry_of_mem acc k k2 v2 hk) hc.2

/-- Merging an upserted duplicate-free scalar map equals merging then
upserting (the key step towards associativity). -/
theorem _mergeDicts_upsertEntry_right (b : List (String × JValue)) :
    ∀ (acc : List (String × JValue)) (k : String) (v : JValue),
    v.isScalar = true → (∀ e ∈ b, e.2.isScalar = true) → (b.map Prod.fst).Nodup →
    _mergeDicts acc (upsertEntry b k v) = upsertEntry (_mergeDicts acc b) k v := by
  induction b with
  | nil => intro acc k v _ _ _; simp [upsertEntry, _mergeDicts]
  | cons e b ih =>
    rcases e with ⟨k1, v1⟩
    intro acc k v hv hall hnd
    simp only [List.map_cons, List.nodup_cons] at hnd
    by_cases hk : k1 = k
    · subst hk
      have he : upsertEntry ((k1, v1) :: b) k1 v = (k1, v) :: b := by
        simp [upsertEntry, mergeValue_scalar_right v hv]
      rw [he]
      simp only [_mergeDicts]
      rw [← _mergeDicts_upsertEntry_left b (upsertEntry acc k1 v1) k1 v
        (mem_keys_upsertEntry acc k1 v1) hnd.1]
      rw [upsertEntry_upsertEntry_scalar k1 v1 v hv acc]
    · simp only [upsertEntry, if_neg hk]
      simp only [_mergeDicts]
      rw [ih (upsertEntry acc k1 v1) k v hv
        (fun e he => hall e (List.mem_cons_of_mem _ he)) hnd.2]

/-- Associativity of the metadata map merge, for maps whose values are
scalar and whose middle map has duplicate-free keys. -/
theorem _mergeDicts_assoc (a b c : List (String × JValue))
    (hb : (b.map Prod.fst).Nodup)
    (hvb : ∀ e ∈ b, e.2.isScalar = true)
    (hvc : ∀ e ∈ c, e.2.isScalar = true) :
    _mergeDicts (_mergeDicts a b) c = _mergeDicts a (_mergeDicts b c) := by
  induction c generalizing b with
  | nil => simp [_mergeDicts]
  | cons e c ih =>
    rcases e with ⟨k, v⟩
    have hv : v.isScalar = true := hvc (k, v) (List.mem_cons_self _ _)
    simp only [_mergeDicts]
    rw [show upsertEntry (_mergeDicts a b) k v = _mergeDicts a (upsertEntry b k v) from
      (_mergeDicts_upsertEntry_right b a k v hv hvb hb).symm]
    rw [ih (upsertEntry b k v)
      (nodup_keys_upsertEntry b k v hb)
      (scalarEntries_upsertEntry k v hv b hvb)
      (fun e he => hvc e (List.mem_cons_of_mem _ he))]

/-- Two text contents always merge to their concatenation. -/
theorem mergeContent_text_text (x y : String) :
    mergeContent (.text x) (.text y) = .text (x ++ y) := by
  by_cases hx : x = ""
  · subst hx
    simp [mergeContent, String.empty_append]
  · simp [mergeContent, hx]

/-- The status merge is associative. -/
theorem _mergeStatus_assoc (a b c : Option MStatus) :
    _mergeStatus (_mergeStatus a b) c = _mergeStatus a (_mergeStatus b c) := by
  cases c <;> cases b <;> simp [_mergeStatus]

/-- The artifact merge is associative when the later two artifacts are absent
or scalar. -/
theorem _mergeObj_scalar_assoc (a b c : Option JValue)
    (hb : optScalar b = true) (hc : optScalar c = true) :
    _mergeObj (_mergeObj a b) c = _mergeObj a (_mergeObj b c) := by
  cases c with
  | none => rw [_mergeObj_none_right, _mergeObj_none_right]
  | some z =>
    have hz : z.isScalar = true := hc
    cases b with
    | none => cases a <;> rfl
    | some y =>
      cases a with
      | none => simp [_mergeObj, mergeValue_scalar_right z hz]
      | some x => simp [_mergeObj, mergeValue_scalar_right z hz]

/-- From the boolean all-scalar check to the membership statement. -/
theorem scalarEntries_iff (l : List (String × JValue)) :
    scalarEntries l = true ↔ ∀ e ∈ l, e.2.isScalar = true := by
  simp [scalarEntries, List.all_eq_true]

/-- C1 (amended): the pairwise fragment merge is associative on fragments
whose contents are plain text, whose metadata maps carry only scalar values
with duplicate-free keys, and whose artifacts are absent or scalar. On
fragments mixing text with part-list content, nesting mappings or sequences
inside metadata values, or mixing sequence and scalar artifacts, grouping of
the merges changes the result (see the counterexample). -/
theorem c1_concat_assoc_amended (A B C : ToolMessageChunk)
    (hAc : A.content.isText = true) (hBc : B.content.isText = true)
    (hCc : C.content.isText = true)
    (hBkw : (B.additional_kwargs.map Prod.fst).Nodup)
    (hBrm : (B.response_metadata.map Prod.fst).Nodup)
    (hvBkw : scalarEntries B.additional_kwargs = true)
    (hvBrm : scalarEntries B.response_metadata = true)
    (hvCkw : scalarEntries C.additional_kwargs = true)
    (hvCrm : scalarEntries C.response_metadata = true)
    (hBart : optScalar B.artifact = true) (hCart : optScalar C.artifact = true) :
    (A.concat B).concat C = A.concat (B.concat C) := by
  obtain ⟨ca, ka, ra, fa, ta, ia, sa⟩ := A
  obtain ⟨cb, kb, rb, fb, tb, ib, sb⟩ := B
  obtain ⟨cc, kc, rc, fc, tc, ic, sc⟩ := C
  cases ca with
  | parts ps => simp [MContent.isText] at hAc
  | text xa =>
  cases cb with
  | parts ps => simp [MContent.isText] at hBc
  | text xb =>
  cases cc with
  | parts ps => simp [MContent.isText] at hCc
  | text xc =>
  simp only at hBkw hBrm hvBkw hvBrm hvCkw hvCrm hBart hCart
  simp only [ToolMessageChunk.concat, ToolMessageChunk.mk.injEq]
  refine ⟨?_, ?_, ?_, ?_, trivial, ?_, ?_⟩
  · rw [mergeContent_text_text, mergeContent_text_text, mergeContent_text_text,
      mergeContent_text_text, String.append_assoc]
  · exact _mergeDicts_assoc ka kb kc hBkw ((scalarEntries_iff kb).mp hvBkw)
      ((scalarEntries_iff kc).mp hvCkw)
  · exact _mergeDicts_assoc ra rb rc hBrm ((scalarEntries_iff rb).mp hvBrm)
      ((scalarEntries_iff rc).mp hvCrm)
  · exact _mergeObj_scalar_assoc fa fb fc hBart hCart
  · simp [Option.or_assoc]
  · exact _mergeStatus_assoc sa sb sc

/-- Witness for the amended C1 at concrete text-content fragments. -/
theorem c1_concat_assoc_amended_witness :
    (toolChunkA.concat toolChunkB).concat toolChunkC =
      toolChunkA.concat (toolChunkB.concat toolChunkC) :=
  c1_concat_assoc_amended toolChunkA toolChunkB toolChunkC
    rfl rfl rfl (by simp [toolChunkB]) (by simp [toolChunkB])
    rfl rfl rfl rfl rfl rfl

/-- Counterexample to C1 as stated: associativity fails on fragments mixing
text and part-list content, on metadata values mixing mappings with
scalars, and on artifacts mixing sequences with scalars. -/
theorem c1_concat_assoc_counterexample :
    ((plainChunk (.text sHello)).concat (plainChunk (.text sWorld))).concat cxPartsC ≠
      (plainChunk (.text sHello)).concat ((plainChunk (.text sWorld)).concat cxPartsC) ∧
    (cxMetaA.concat cxMetaB).concat cxMetaC ≠ cxMetaA.concat (cxMetaB.concat cxMetaC) ∧
    (cxArtA.concat cxArtB).concat cxArtC ≠ cxArtA.concat (cxArtB.concat cxArtC) := by
  refine ⟨fun h => ?_, fun h => ?_, fun h => ?_⟩
  · have hc := congrArg ToolMessageChunk.content h
    simp [ToolMessageChunk.concat, plainChunk, cxPartsC, mergeContent, textPart,
      sHello, sWorld, sPart, keyType, keyText, textTag] at hc
  · have hc := congrArg ToolMessageChunk.additional_kwargs h
    simp [ToolMessageChunk.concat, cxMetaA, cxMetaB, cxMetaC, plainChunk,
      _mergeDicts, upsertEntry, mergeValue, keyK, keyX, keyY] at hc
  · have hc := congrArg ToolMessageChunk.artifact h
    simp [ToolMessageChunk.concat, cxArtA, cxArtB, cxArtC, plainChunk,
      _mergeObj, mergeValue] at hc

/-- Inserting by key is a permutation of consing. -/
theorem insertByKey_perm {α : Type} (p : Nat × α) (l : List (Nat × α)) :
    List.Perm (insertByKey p l) (p :: l) := by
  induction l with
  | nil => simp [insertByKey]
  | cons q qs ih =>
    simp only [insertByKey]
    by_cases h : p.1 ≤ q.1
    · simp [h]
    · rw [if_neg h]
      exact (List.Perm.cons q ih).trans (List.Perm.swap p q qs)

/-- Sorting by key is a permutation of the input. -/
theorem sortByKey_perm {α : Type} (l : List (Nat × α)) :
    List.Perm (sortByKey l) l := by
  induction l with
  | nil => simp [sortByKey]
  | cons p ps ih =>
    exact (insertByKey_perm p (sortByKey ps)).trans (List.Perm.cons p ih)

/-- Insertion by key preserves sortedness by key. -/
theorem insertByKey_sorted {α : Type} (p : Nat × α) (l : List (Nat × α))
    (h : l.Pairwise (fun a b => a.1 ≤ b.1)) :
    (insertByKey p l).Pairwise (fun a b => a.1 ≤ b.1) := by
  induction l with
  | nil => simp [insertByKey]
  | cons q qs ih =>
    rcases List.pairwise_cons.mp h with ⟨hq, hqs⟩
    simp only [insertByKey]
    by_cases hle : p.1 ≤ q.1
    · rw [if_pos hle]
      refine List.pairwise_cons.mpr ⟨?_, h⟩
      intro r hr
      rcases List.mem_cons.mp hr with h1 | h1
      · exact h1 ▸ hle
      · exact le_trans hle (hq r h1)
    · rw [if_neg hle]
      refine List.pairwise_cons.mpr ⟨?_, ih hqs⟩
      intro r hr
      rcases List.mem_cons.mp ((insertByKey_perm p qs).mem_iff.mp hr) with h1 | h1
      · exact h1 ▸ le_of_not_le hle
      · exact hq r h1

/-- Sorting by key yields a list sorted by key. -/
theorem sortByKey_sorted {α : Type} (l : List (Nat × α)) :
    (sortByKey l).Pairwise (fun a b => a.1 ≤ b.1) := by
  induction l with
  | nil => simp [sortByKey]
  | cons p ps ih => exact insertByKey_sorted p (sortByKey ps) ih

/-- Inserting an index is a permutation of consing. -/
theorem insertNat_perm (i : Nat) (l : List Nat) :
    List.Perm (insertNat i l) (i :: l) := by
  induction l with
  | nil => simp [insertNat]
  | cons j js ih =>
    simp only [insertNat]
    by_cases h : i ≤ j
    · simp [h]
    · rw [if_neg h]
      exact (List.Perm.cons j ih).trans (List.Perm.swap i j js)

/-- Sorting indices is a permutation of the input. -/
theorem sortNat_perm (l : List Nat) : List.Perm (sortNat l) l := by
  induction l with
  | nil => simp [sortNat]
  | cons i is ih =>
    exact (insertNat_perm i (sortNat is)).trans (List.Perm.cons i ih)

/-- Insertion of an index preserves sortedness. -/
theorem insertNat_sorted (i : Nat) (l : List Nat)
    (h : l.Pairwise (· ≤ ·)) : (insertNat i l).Pairwise (· ≤ ·) := by
  induction l with
  | nil => simp [insertNat]
  | cons j js ih =>
    rcases List.pairwise_cons.mp h with ⟨hj, hjs⟩
    simp only [insertNat]
    by_cases hle : i ≤ j
    · rw [if_pos hle]
      refine List.pairwise_cons.mpr ⟨?_, h⟩
      intro r hr
      rcases List.mem_cons.mp hr with h1 | h1
      · exact h1 ▸ hle
      · exact le_trans hle (hj r h1)
    · rw [if_neg hle]
      refine List.pairwise_cons.mpr ⟨?_, ih hjs⟩
      intro r hr
      rcases List.mem_cons.mp ((insertNat_perm i js).mem_iff.mp hr) with h1 | h1
      · exact h1 ▸ le_of_not_le hle
      · exact hj r h1

/-- Sorted indices are ascending. -/
theorem sortNat_sorted (l : List Nat) : (sortNat l).Pairwise (· ≤ ·) := by
  induction l with
  | nil => simp [sortNat]
  | cons i is ih => exact insertNat_sorted i (sortNat is) ih

/-- A lookup misses exactly the absent keys. -/
theorem lookupIndex_eq_none_iff {α : Type} (m : List (Nat × α)) (i : Nat) :
    lookupIndex m i = none ↔ i ∉ m.map Prod.fst := by
  induction m with
  | nil => simp [lookupIndex]
  | cons e m ih =>
    rcases e with ⟨k, v⟩
    by_cases hk : k = i
    · simp [lookupIndex, hk]
    · have hik : ¬ (i = k) := fun h => hk h.symm
      simp [lookupIndex, hk, ih, hik]

/-- Looking up the key of a freshly appended entry. -/
theorem lookupIndex_append_self {α : Type} (m : List (Nat × α)) (i : Nat) (c : α)
    (h : i ∉ m.map Prod.fst) : lookupIndex (m ++ [(i, c)]) i = some c := by
  induction m with
  | nil => simp [lookupIndex]
  | cons e m ih =>
    rcases e with ⟨k, v⟩
    simp only [List.map_cons, List.mem_cons] at h
    push_neg at h
    have hki : ¬ (k = i) := fun hh => h.1 hh.symm
    simp only [List.cons_append, lookupIndex, if_neg hki]
    exact ih h.2

/-- Appending an entry with a different key does not change a lookup. -/
theorem lookupIndex_append_ne {α : Type} (m : List (Nat × α)) (i j : Nat) (c : α)
    (h : j ≠ i) : lookupIndex (m ++ [(i, c)]) j = lookupIndex m j := by
  have hij : ¬ (i = j) := fun hh => h hh.symm
  induction m with
  | nil => simp [lookupIndex, hij]
  | cons e m ih =>
    rcases e with ⟨k, v⟩
    by_cases hk : k = j
    · simp [lookupIndex, hk]
    · simp [lookupIndex, hk, ih]

/-- Looking up a replaced present key. -/
theorem lookupIndex_setIndex_self {α : Type} (m : List (Nat × α)) (i : Nat) (v : α)
    (h : i ∈ m.map Prod.fst) : lookupIndex (setIndex m i v) i = some v := by
  induction m with
  | nil => simp at h
  | cons e m ih =>
    rcases e with ⟨k, w⟩
    by_cases hk : k = i
    · simp [setIndex, lookupIndex, hk]
    · simp only [List.map_cons, List.mem_cons] at h
      rcases h with h | h
      · exact absurd h.symm hk
      · simp [setIndex, lookupIndex, hk, ih h]

/-- Replacing one key does not change other lookups. -/
theorem lookupIndex_setIndex_ne {α : Type} (m : List (Nat × α)) (i j : Nat) (v : α)
    (h : j ≠ i) : lookupIndex (setIndex m i v) j = lookupIndex m j := by
  have hij : ¬ (i = j) := fun hh => h hh.symm
  induction m with
  | nil => simp [setIndex, lookupIndex, hij]
  | cons e m ih =>
    rcases e with ⟨k, w⟩
    by_cases hk : k = i
    · simp [setIndex, lookupIndex, hk, hij]
    · by_cases hkj : k = j
      · simp [setIndex, lookupIndex, hk, hkj, hij, h]
      · simp [setIndex, lookupIndex, hk, hkj, ih]

/-- Replacing a present key keeps the key list unchanged. -/
theorem keys_setIndex {α : Type} (m : List (Nat × α)) (i : Nat) (v : α)
    (h : i ∈ m.map Prod.fst) : (setIndex m i v).map Prod.fst = m.map Prod.fst := by
  induction m with
  | nil => simp at h
  | cons e m ih =>
    rcases e with ⟨k, w⟩
    by_cases hk : k = i
    · simp [setIndex, hk]
    · simp only [List.map_cons, List.mem_cons] at h
      rcases h with h | h
      · exact absurd h.symm hk
      · simp [setIndex, hk, ih h]

/-- Computing `firstSeen` over an appended element is one `addFirstSeen` step. -/
theorem firstSeen_append_one (xs : List Nat) (i : Nat) :
    firstSeen (xs ++ [i]) = addFirstSeen (firstSeen xs) i := by
  simp [firstSeen, List.foldl_append]

/-- The `firstSeen` fold preserves duplicate-freeness of its accumulator. -/
theorem nodup_foldl_addFirstSeen (xs : List Nat) :
    ∀ acc : List Nat, acc.Nodup → (xs.foldl addFirstSeen acc).Nodup := by
  induction xs with
  | nil => intro acc h; exact h
  | cons x xs ih =>
    intro acc h
    simp only [List.foldl_cons]
    apply ih
    unfold addFirstSeen
    by_cases hx : x ∈ acc
    · simpa [hx] using h
    · simp [hx, List.nodup_append, h]

/-- The first-seen index list is duplicate-free. -/
theorem nodup_firstSeen (xs : List Nat) : (firstSeen xs).Nodup :=
  nodup_foldl_addFirstSeen xs [] List.nodup_nil

/-- Appending one fragment to a group extends its fold by one merge. -/
theorem foldGroup_append_one {α : Type} (concat : α → α → α) (g : List α) (c : α) :
    foldGroup concat (g ++ [c]) =
      match foldGroup concat g with
      | none => some c
      | some p => some (concat p c) := by
  cases g with
  | nil => rfl
  | cons h t => simp [foldGroup, List.foldl_append]

/-- An empty group folds to nothing and conversely. -/
theorem foldGroup_eq_none_iff {α : Type} (concat : α → α → α) (g : List α) :
    foldGroup concat g = none ↔ g = [] := by
  cases g <;> simp [foldGroup]

/-- The keys after one aggregation step. -/
theorem keys_aggStep {α : Type} (getIndex : α → Option Nat) (concat : α → α → α)
    (m : List (Nat × α)) (c : α) :
    (aggStep getIndex concat m c).map Prod.fst =
      addFirstSeen (m.map Prod.fst) (chunkIndex getIndex c) := by
  unfold aggStep addFirstSeen
  dsimp only
  cases hl : lookupIndex m (chunkIndex getIndex c) with
  | none =>
    have hmem : chunkIndex getIndex c ∉ m.map Prod.fst :=
      (lookupIndex_eq_none_iff _ _).mp hl
    simp [hmem]
  | some prev =>
    have hmem : chunkIndex getIndex c ∈ m.map Prod.fst := by
      by_contra hc
      rw [← lookupIndex_eq_none_iff] at hc
      rw [hl] at hc
      exact Option.noConfusion hc
    simp [keys_setIndex _ _ _ hmem, hmem]

/-- The keys of the aggregation map are the first-seen indices. -/
theorem keys_agg {α : Type} (getIndex : α → Option Nat) (concat : α → α → α)
    (l : List α) :
    (l.foldl (aggStep getIndex concat) []).map Prod.fst =
      firstSeen (l.map (chunkIndex getIndex)) := by
  induction l using List.reverseRecOn with
  | nil => rfl
  | append_singleton l c ih =>
    rw [List.foldl_append, List.map_append]
    simp only [List.foldl_cons, List.foldl_nil, List.map_cons, List.map_nil]
    rw [firstSeen_append_one, keys_aggStep, ih]

/-- One aggregation step, described through lookups. -/
theorem lookup_aggStep {α : Type} (getIndex : α → Option Nat) (concat : α → α → α)
    (m : List (Nat × α)) (c : α) (j : Nat) :
    lookupIndex (aggStep getIndex concat m c) j =
      if j = chunkIndex getIndex c then
        match lookupIndex m j with
        | none => some c
        | some p => some (concat p c)
      else lookupIndex m j := by
  unfold aggStep
  dsimp only
  by_cases hj : j = chunkIndex getIndex c
  · rw [if_pos hj]
    cases hl : lookupIndex m (chunkIndex getIndex c) with
    | none =>
      have hl' : lookupIndex m j = none := by rw [hj]; exact hl
      rw [hl', hj]
      exact lookupIndex_append_self m _ c ((lookupIndex_eq_none_iff m _).mp hl)
    | some p =>
      have hl' : lookupIndex m j = some p := by rw [hj]; exact hl
      rw [hl', hj]
      apply lookupIndex_setIndex_self
      by_contra hc
      rw [← lookupIndex_eq_none_iff] at hc
      rw [hl] at hc
      exact Option.noConfusion hc
  · rw [if_neg hj]
    cases hl : lookupIndex m (chunkIndex getIndex c) with
    | none => exact lookupIndex_append_ne m _ j c hj
    | some p => exact lookupIndex_setIndex_ne m _ j _ hj

/-- The aggregation map's entry for an index is the fold of that index's
group, in arrival order, seeded with the group's first fragment. -/
theorem lookup_agg {α : Type} (getIndex : α → Option Nat) (concat : α → α → α)
    (l : List α) (j : Nat) :
    lookupIndex (l.foldl (aggStep getIndex concat) []) j =
      foldGroup concat (l.filter (fun c => chunkIndex getIndex c == j)) := by
  induction l using List.reverseRecOn with
  | nil => rfl
  | append_singleton l c ih =>
    rw [List.foldl_append]
    simp only [List.foldl_cons, List.foldl_nil]
    rw [lookup_aggStep, List.filter_append]
    by_cases hj : j = chunkIndex getIndex c
    · rw [if_pos hj, ih]
      have hc : (chunkIndex getIndex c == j) = true := by simp [hj]
      simp only [List.filter_cons, List.filter_nil, hc, if_true]
      rw [foldGroup_append_one]
    · rw [if_neg hj, ih]
      have hcc : ¬ (chunkIndex getIndex c = j) := fun h => hj h.symm
      have hc : (chunkIndex getIndex c == j) = false := by simp [hcc]
      simp [List.filter_cons, hc]

/-- A duplicate-free association list is recovered by looking up its own
keys in order. -/
theorem filterMap_keys_self {α : Type} (M : List (Nat × α))
    (h : (M.map Prod.fst).Nodup) :
    (M.map Prod.fst).filterMap (fun i => (lookupIndex M i).map (fun a => (i, a))) = M := by
  induction M with
  | nil => rfl
  | cons e M ih =>
    rcases e with ⟨i, v⟩
    simp only [List.map_cons, List.nodup_cons] at h
    have h1 : lookupIndex ((i, v) :: M) i = some v := by simp [lookupIndex]
    simp only [List.map_cons, List.filterMap_cons, h1, Option.map_some']
    have h2 : (M.map Prod.fst).filterMap
          (fun j => (lookupIndex ((i, v) :: M) j).map (fun a => (j, a))) =
        (M.map Prod.fst).filterMap (fun j => (lookupIndex M j).map (fun a => (j, a))) := by
      apply List.filterMap_congr
      intro j hj
      have hne : ¬ (i = j) := fun hh => h.1 (hh ▸ hj)
      simp [lookupIndex, hne]
    rw [h2, ih h.2]

/-- Keys strictly ascending on a key list lift through the lookup-shaped
`filterMap` to strictly ascending pair keys. -/
theorem pairwise_keyLt_filterMap {α : Type} (g : Nat → Option α) (ks : List Nat)
    (h : ks.Pairwise (· < ·)) :
    (ks.filterMap (fun i => (g i).map (fun a => (i, a)))).Pairwise
      (fun p q => p.1 < q.1) := by
  induction ks with
  | nil => simp
  | cons i ks ih =>
    rcases List.pairwise_cons.mp h with ⟨hi, hks⟩
    simp only [List.filterMap_cons]
    cases hg : g i with
    | none => exact ih hks
    | some a =>
      simp only [Option.map_some']
      refine List.pairwise_cons.mpr ⟨?_, ih hks⟩
      intro q hq
      rcases List.mem_filterMap.mp hq with ⟨j, hj, hfj⟩
      cases hgj : g j with
      | none =>
        rw [hgj] at hfj
        exact Option.noConfusion hfj
      | some b =>
        rw [hgj] at hfj
        simp only [Option.map_some', Option.some.injEq] at hfj
        have hq1 : q.1 = j := by rw [← hfj]
        rw [hq1]
        exact hi j hj

/-- Weakly sorted pairs with duplicate-free keys are strictly sorted. -/
theorem pairwise_lt_of_le_nodup {α : Type} (l : List (Nat × α))
    (hle : l.Pairwise (fun p q => p.1 ≤ q.1)) (hnd : (l.map Prod.fst).Nodup) :
    l.Pairwise (fun p q => p.1 < q.1) := by
  have h2 : l.Pairwise (fun p q => p.1 ≠ q.1) := List.pairwise_map.mp hnd
  exact (hle.and h2).imp (fun h => lt_of_le_of_ne h.1 h.2)

/-- Two permuted lists of pairs, both strictly sorted by key, are equal. -/
theorem sorted_pairs_eq {α : Type} (L1 L2 : List (Nat × α)) (hp : List.Perm L1 L2)
    (h1 : L1.Pairwise (fun p q => p.1 < q.1))
    (h2 : L2.Pairwise (fun p q => p.1 < q.1)) : L1 = L2 := by
  letI : IsAntisymm (Nat × α) (fun p q => p.1 < q.1) :=
    ⟨fun a b hab hba => absurd (lt_trans hab hba) (lt_irrefl _)⟩
  exact List.eq_of_perm_of_sorted hp h1 h2

/-- Sorting a duplicate-free association list by key equals reading off its
entries along its ascending key list. -/
theorem sortByKey_eq_sortNat_filterMap {α : Type} (M : List (Nat × α))
    (h : (M.map Prod.fst).Nodup) :
    sortByKey M = (sortNat (M.map Prod.fst)).filterMap
      (fun i => (lookupIndex M i).map (fun a => (i, a))) := by
  have hX : List.Perm
      ((sortNat (M.map Prod.fst)).filterMap
        (fun i => (lookupIndex M i).map (fun a => (i, a)))) M := by
    have hperm := (sortNat_perm (M.map Prod.fst)).filterMap
      (fun i => (lookupIndex M i).map (fun a => (i, a)))
    rw [filterMap_keys_self M h] at hperm
    exact hperm
  apply sorted_pairs_eq
  · exact (sortByKey_perm M).trans hX.symm
  · apply pairwise_lt_of_le_nodup _ (sortByKey_sorted M)
    have hpk : List.Perm ((sortByKey M).map Prod.fst) (M.map Prod.fst) :=
      (sortByKey_perm M).map Prod.fst
    exact hpk.nodup_iff.mpr h
  · apply pairwise_keyLt_filterMap
    have hle := sortNat_sorted (M.map Prod.fst)
    have hnd : (sortNat (M.map Prod.fst)).Nodup := (sortNat_perm _).nodup_iff.mpr h
    exact (hle.and hnd).imp (fun hh => lt_of_le_of_ne hh.1 hh.2)

/-- C2: the terminal aggregation groups chunks by their stream index
(default 0 when none is carried), folds each group by pairwise merge in
exact arrival order seeded with the first chunk seen for that index, and
emits the final per-index merged results ordered by ascending numeric
stream index, regardless of arrival order. -/
theorem c2_aggregate_characterization {α : Type} (enrich : α → α)
    (getIndex : α → Option Nat) (concat : α → α → α) (chunks : List α) :
    aggregateFinalChunks enrich getIndex concat chunks =
      (sortNat (firstSeen ((chunks.map enrich).map (chunkIndex getIndex)))).filterMap
        (fun i => foldGroup concat
          ((chunks.map enrich).filter (fun c => chunkIndex getIndex c == i))) := by
  unfold aggregateFinalChunks
  dsimp only
  rw [show chunks.foldl (fun m c => aggStep getIndex concat m (enrich c)) [] =
      (chunks.map enrich).foldl (aggStep getIndex concat) [] from
    (List.foldl_map enrich (aggStep getIndex concat) chunks []).symm]
  have hkeys : ((chunks.map enrich).foldl (aggStep getIndex concat) []).map Prod.fst =
      firstSeen ((chunks.map enrich).map (chunkIndex getIndex)) :=
    keys_agg getIndex concat (chunks.map enrich)
  have hnd : (((chunks.map enrich).foldl (aggStep getIndex concat) []).map Prod.fst).Nodup := by
    rw [hkeys]
    exact nodup_firstSeen _
  rw [sortByKey_eq_sortNat_filterMap _ hnd, List.map_filterMap, hkeys]
  apply List.filterMap_congr
  intro i _
  rw [← lookup_agg getIndex concat (chunks.map enrich) i]
  cases lookupIndex ((chunks.map enrich).foldl (aggStep getIndex concat) []) i <;> rfl

example :
    aggregateFinalChunks id Prod.fst mergeTagged
      [(some 1, [sHello]), (some 0, [sWorld]), (some 1, [sTail]), (some 0, [sPart])] =
      [(some 0, [sWorld, sPart]), (some 1, [sHello, sTail])] := by decide
